import Mathlib

/-!
Shallow embedding of the aggregation/selection engine of
`src/website/visualization.js`, which consists of two pipelines:

* a sector treemap pipeline (group stock rows by sector, crypto rows by
  coin symbol, normalize raw magnitudes to proportions), and
* the ranked-bar pipeline `renderMarketViz` (group rows by a normalized
  identity key, average a percent-change column and pick the top/bottom
  performers with `pickTopBottom`).

JS numbers are modelled as rationals (`ℚ`); a JS `NaN` outcome is
modelled as `none : Option ℚ`.  A JS string value that may be
`undefined` (a missing CSV field) is modelled as `Option String`.
Insertion-ordered JS `Map`s are modelled as association lists, and the
stable `Array.prototype.sort` as `List.insertionSort` (stable for a
total preorder, hence producing the same list).
-/

namespace Viz

/-- JS whitespace, as far as `trim` and `parseFloat` skipping needs it here. -/
def isJsWS (c : Char) : Bool :=
  c = ' ' || c = '\t' || c = '\n' || c = '\r' || c = '\x0b' || c = '\x0c'

/-- `s.trim()` on the underlying character list. -/
def jsTrimChars (cs : List Char) : List Char :=
  ((cs.dropWhile isJsWS).reverse.dropWhile isJsWS).reverse

/-- `s.trim()`. -/
def jsTrim (s : String) : String := ⟨jsTrimChars s.data⟩

/-- `s.toLowerCase()` (case folding per character). -/
def jsToLower (s : String) : String := ⟨s.data.map Char.toLower⟩

/-- Numeric value of a digit character. -/
def digitVal (c : Char) : ℕ := c.toNat - '0'.toNat

/-- Value of a digit string. -/
def natOfDigits (ds : List Char) : ℕ := ds.foldl (fun n c => 10 * n + digitVal c) 0

/-- `String.prototype.replace` with a one-character pattern and empty
replacement: removes the first occurrence only. -/
def stripFirst (c : Char) : List Char → List Char
  | [] => []
  | x :: xs => if x = c then xs else x :: stripFirst c xs

/-- An optional leading sign. -/
def splitSign : List Char → Int × List Char
  | '-' :: cs => (-1, cs)
  | '+' :: cs => (1, cs)
  | cs => (1, cs)

/-- `parseFloat`: skip leading whitespace, then an optional sign and the
longest prefix of the form `digits [. digits] [e|E [sign] digits]`;
`none` models `NaN` (no mantissa digits at all).  The non-finite
literals `Infinity`/`-Infinity`, which `parseFloat` would also accept,
are outside this rational model. -/
def jsParseFloat (cs0 : List Char) : Option ℚ :=
  let cs1 := cs0.dropWhile isJsWS
  let sgn := (splitSign cs1).1
  let cs2 := (splitSign cs1).2
  let ip := cs2.takeWhile Char.isDigit
  let rest := cs2.dropWhile Char.isDigit
  let fp :=
    match rest with
    | '.' :: t => t.takeWhile Char.isDigit
    | _ => []
  let rest2 :=
    match rest with
    | '.' :: t => t.dropWhile Char.isDigit
    | _ => rest
  if ip = [] ∧ fp = [] then none
  else
    let e : Int :=
      match rest2 with
      | c :: t =>
        if c = 'e' ∨ c = 'E' then
          let es := (splitSign t).1
          let ds := (splitSign t).2.takeWhile Char.isDigit
          if ds = [] then 0 else es * (natOfDigits ds : Int)
        else 0
      | [] => 0
    some (((sgn * (natOfDigits (ip ++ fp) : Int) : Int) : ℚ) * (10 : ℚ) ^ (e - (fp.length : Int)))

/-- A fully-matched decimal literal `[sign] digits [. digits]
[e|E [sign] digits]` (the whole input must be consumed), or `none`. -/
def parseDecimalAll (cs : List Char) : Option ℚ :=
  let sgn := (splitSign cs).1
  let cs2 := (splitSign cs).2
  let ip := cs2.takeWhile Char.isDigit
  let rest := cs2.dropWhile Char.isDigit
  let fp :=
    match rest with
    | '.' :: t => t.takeWhile Char.isDigit
    | _ => []
  let rest2 :=
    match rest with
    | '.' :: t => t.dropWhile Char.isDigit
    | _ => rest
  if ip = [] ∧ fp = [] then none
  else
    match rest2 with
    | [] => some (((sgn * (natOfDigits (ip ++ fp) : Int) : Int) : ℚ) * (10 : ℚ) ^ (-(fp.length : Int)))
    | c :: t =>
      if c = 'e' ∨ c = 'E' then
        let es := (splitSign t).1
        let t2 := (splitSign t).2
        let ds := t2.takeWhile Char.isDigit
        if ds = [] ∨ t2.dropWhile Char.isDigit ≠ [] then none
        else some (((sgn * (natOfDigits (ip ++ fp) : Int) : Int) : ℚ) *
          (10 : ℚ) ^ (es * (natOfDigits ds : Int) - (fp.length : Int)))
      else none

/-- JS `Number(x)` coercion of a possibly-missing string (the unary `+`):
`+undefined` is `NaN`, `+""` (after trimming) is `0`, otherwise the whole
trimmed string must be a decimal literal.  `Infinity` and radix-prefixed
literals are outside this rational model. -/
def jsNumber : Option String → Option ℚ
  | none => none
  | some s =>
    let cs := jsTrimChars s.data
    if cs = [] then some 0 else parseDecimalAll cs

/-- `+x || 0`: a `NaN` (and a zero) coerces to `0`. -/
def jsNumberOr0 (s : Option String) : ℚ := (jsNumber s).getD 0

/-- `parsePct` from `renderMarketViz`: a falsy input (missing field or
empty string) is `NaN`; otherwise strip the first `%` and the first `+`
and apply `parseFloat`. -/
def parsePct : Option String → Option ℚ
  | none => none
  | some s => if s = "" then none else jsParseFloat (stripFirst '+' (stripFirst '%' s.data))

/-- `parseNumber` from the treemap file: `null`-ish or `""` is `NaN`;
otherwise remove every comma and coerce with unary `+`. -/
def parseNumber : Option String → Option ℚ
  | none => none
  | some s => if s = "" then none else jsNumber (some ⟨s.data.filter (fun c => !(c = ','))⟩)

/-! ### The ranked-bar pipeline (`renderMarketViz`) -/

/-- A parsed stock CSV row, reduced to the fields the aggregation reads. -/
structure StockRow where
  name : Option String
  chg : Option String
deriving DecidableEq

/-- A parsed crypto CSV row, reduced to the fields the aggregation reads. -/
structure CryptoRow where
  symbol : Option String
  name : Option String
  chg24 : Option String
deriving DecidableEq

/-- A per-group accumulator of `renderMarketViz` (crypto groups also
remember the first row's `name`). -/
structure Group where
  category : String
  code : String
  gname : Option String := none
  sum : ℚ := 0
  count : ℕ := 0
deriving DecidableEq

/-- `Map.get` on an insertion-ordered association list. -/
def mapGetA {β : Type} : List (String × β) → String → Option β
  | [], _ => none
  | (k1, g) :: m, k => if k1 = k then some g else mapGetA m k

/-- `Map.set`: overwrite the value at an existing key in place, else
append a new entry at the end. -/
def mapSetA {β : Type} (k : String) (v : β) : List (String × β) → List (String × β)
  | [] => [(k, v)]
  | (k1, g) :: m => if k1 = k then (k1, v) :: m else (k1, g) :: mapSetA k v m

/-- The stock aggregation loop of `renderMarketViz`, folding rows in input
order into the insertion-ordered map `stockGroups`.  A row whose `chg_%`
field fails to parse is skipped; on a row that does parse, a missing
`name` field makes the JS throw (`d.name.trim` on `undefined`), modelled
as `Except.error`. -/
def stocksLoop : List StockRow → List (String × Group) → Except Unit (List (String × Group))
  | [], m => Except.ok m
  | d :: rest, m =>
    match parsePct d.chg with
    | none => stocksLoop rest m
    | some pct =>
      match d.name with
      | none => Except.error ()
      | some nm =>
        let key := jsToLower (jsTrim nm)
        let prettyName := jsTrim nm
        let group := (mapGetA m key).getD { category := "Stock", code := prettyName }
        stocksLoop rest (mapSetA key { group with sum := group.sum + pct, count := group.count + 1 } m)

/-- The crypto aggregation loop of `renderMarketViz` (keyed by trimmed
lower-cased `symbol`, accumulating `chg_24h`). -/
def cryptoLoop : List CryptoRow → List (String × Group) → Except Unit (List (String × Group))
  | [], m => Except.ok m
  | d :: rest, m =>
    match parsePct d.chg24 with
    | none => cryptoLoop rest m
    | some pct =>
      match d.symbol with
      | none => Except.error ()
      | some sy =>
        let key := jsToLower (jsTrim sy)
        let symbol := jsTrim sy
        let group := (mapGetA m key).getD { category := "Crypto", code := symbol, gname := d.name }
        cryptoLoop rest (mapSetA key { group with sum := group.sum + pct, count := group.count + 1 } m)

/-- A per-asset record of `renderMarketViz`. -/
structure Asset where
  id : String
  category : String
  code : String
  aname : Option String := none
  avgPct : ℚ
  absAvgPct : ℚ
  count : ℕ
deriving DecidableEq

/-- One element of `[...stockGroups.values()].map(...)`. -/
def stockAsset (g : Group) : Asset :=
  { id := "Stock|" ++ g.code, category := "Stock", code := g.code,
    avgPct := g.sum / (g.count : ℚ), absAvgPct := |g.sum / (g.count : ℚ)|, count := g.count }

/-- One element of `[...cryptoGroups.values()].map(...)`. -/
def cryptoAsset (g : Group) : Asset :=
  { id := "Crypto|" ++ g.code, category := "Crypto", code := g.code, aname := g.gname,
    avgPct := g.sum / (g.count : ℚ), absAvgPct := |g.sum / (g.count : ℚ)|, count := g.count }

/-- `[...groups.values()].map(f)`: the map values in insertion order. -/
def assetsOf (f : Group → Asset) (m : List (String × Group)) : List Asset :=
  m.map (fun kg => f kg.2)

/-- `const POS_N = 10`. -/
def POS_N : ℕ := 10

/-- `const NEG_N = 10`. -/
def NEG_N : ℕ := 10

/-- `d3.descending(a.avgPct, b.avgPct)` as the sort order of the positives. -/
def descMean (a b : Asset) : Prop := b.avgPct ≤ a.avgPct

/-- `d3.ascending(a.avgPct, b.avgPct)` as the sort order of the negatives. -/
def ascMean (a b : Asset) : Prop := a.avgPct ≤ b.avgPct

instance : DecidableRel descMean := fun a b => inferInstanceAs (Decidable (b.avgPct ≤ a.avgPct))

instance : DecidableRel ascMean := fun a b => inferInstanceAs (Decidable (a.avgPct ≤ b.avgPct))

instance : IsTotal Asset descMean := ⟨fun a b => le_total b.avgPct a.avgPct⟩

instance : IsTotal Asset ascMean := ⟨fun a b => le_total a.avgPct b.avgPct⟩

instance : IsTrans Asset descMean := ⟨fun _ _ _ h h2 => le_trans h2 h⟩

instance : IsTrans Asset ascMean := ⟨fun _ _ _ h h2 => le_trans h h2⟩

/-- `pickTopBottom`, generalised over the two bounds (the source reads the
constants `POS_N`/`NEG_N`): positives sorted descending by mean, first
`posN`; negatives sorted ascending (most negative first), first `negN`,
then reversed; the concatenation is deduplicated by `id` through a JS
`Map` (insertion order of first key occurrence, later value wins). -/
def pickTopBottom (posN negN : ℕ) (arr : List Asset) : List Asset :=
  let positives :=
    (List.insertionSort descMean (arr.filter (fun d => decide (0 < d.avgPct)))).take posN
  let negatives :=
    ((List.insertionSort ascMean (arr.filter (fun d => decide (d.avgPct < 0)))).take negN).reverse
  ((positives ++ negatives).foldl (fun m d => mapSetA d.id d m) []).map (fun kv => kv.2)

/-- The full `renderMarketViz` data pipeline: aggregate both datasets,
build the per-asset records, then select top/bottom performers for each
panel. -/
def marketPipeline (sRaw : List StockRow) (cRaw : List CryptoRow) (posN negN : ℕ) :
    Except Unit ((List Asset × List Asset) × (List Asset × List Asset)) := do
  let sg ← stocksLoop sRaw []
  let cg ← cryptoLoop cRaw []
  let stocks := assetsOf stockAsset sg
  let cryptos := assetsOf cryptoAsset cg
  Except.ok ((stocks, cryptos), (pickTopBottom posN negN stocks, pickTopBottom posN negN cryptos))

/-! ### The treemap pipeline -/

/-- A stock CSV row of the treemap pipeline (`symbol`, `vol_`, `chg_%`). -/
structure TStockRow where
  symbol : Option String
  vol : Option String
  chg : Option String
deriving DecidableEq

/-- A crypto CSV row of the treemap pipeline. -/
structure TCryptoRow where
  symbol : Option String
  name : Option String
  marketCap : Option String
  chg7d : Option String
deriving DecidableEq

/-- A company CSV row (`ticker`, `sector`). -/
structure CompanyRow where
  ticker : Option String
  sector : Option String
deriving DecidableEq

/-- JS `a || b` for a possibly-missing string against a string default:
`undefined` and `""` are falsy. -/
def jsOrStr (a : Option String) (b : String) : String :=
  match a with
  | none => b
  | some s => if s = "" then b else s

/-- JS `a || b` where both operands may be missing strings. -/
def jsOrOpt (a b : Option String) : Option String :=
  match a with
  | none => b
  | some s => if s = "" then b else some s

/-- `new Map(companyRows.map(d => [d["ticker"], d["sector"] || "Unknown"]))`
as its entry list (construction order; duplicates allowed, later wins on
lookup). -/
def sectorByTicker (companyRows : List CompanyRow) : List (Option String × String) :=
  companyRows.map (fun d => (d.ticker, jsOrStr d.sector "Unknown"))

/-- Lookup in a `Map` built from an entry list: the last entry with the
key wins. -/
def entryGet {κ β : Type} [DecidableEq κ] (entries : List (κ × β)) (k : κ) : Option β :=
  (entries.reverse.find? (fun e => decide (e.1 = k))).map (fun e => e.2)

/-- `sectorByTicker.get(r.symbol) || "Unknown"`: the grouping key of a
stock row in the treemap pipeline. -/
def sectorOf (companyRows : List CompanyRow) (r : TStockRow) : String :=
  jsOrStr (entryGet (sectorByTicker companyRows) r.symbol) "Unknown"

/-- Keys in order of first occurrence: the iteration order of the intern
map built by `d3.rollup`. -/
def firstKeys {ρ κ : Type} [DecidableEq κ] (key : ρ → κ) : List ρ → List κ
  | [] => []
  | x :: xs => key x :: (firstKeys key xs).filter (fun k => ! decide (k = key x))

/-- `d3.group`/`d3.rollup` grouping: first-occurrence key order, each
bucket keeping the rows with that key in input order. -/
def groupRows {ρ κ : Type} [DecidableEq κ] (key : ρ → κ) (l : List ρ) : List (κ × List ρ) :=
  (firstKeys key l).map (fun k => (k, l.filter (fun r => decide (key r = k))))

/-- The reducer result of the stock `d3.rollup`. -/
structure SectorStats where
  totalLiquidity : ℚ
  avgChange : ℚ
  count : ℕ
deriving DecidableEq

/-- `rows => { totalLiquidity: d3.sum(rows, r => +r.vol_ || 0), avgChange:
d3.mean(rows, r => +r["chg_%"] || 0), count: rows.length }`. -/
def sectorStats (rows : List TStockRow) : SectorStats :=
  { totalLiquidity := (rows.map (fun r => jsNumberOr0 r.vol)).sum,
    avgChange := (rows.map (fun r => jsNumberOr0 r.chg)).sum / (rows.length : ℚ),
    count := rows.length }

/-- The stock `d3.rollup`, keyed by mapped sector. -/
def sectorAgg (companyRows : List CompanyRow) (stockRows : List TStockRow) :
    List (String × SectorStats) :=
  (groupRows (sectorOf companyRows) stockRows).map (fun ks => (ks.1, sectorStats ks.2))

/-- A treemap leaf record; `value` is only set by the normalization step. -/
structure Child where
  name : Option String
  type : String
  symbol : Option String := none
  rawValue : ℚ
  avgChange : ℚ
  count : ℕ
  value : ℚ := 0
deriving DecidableEq

/-- `stockChildrenRaw`: one leaf per sector, keeping only positive raw
liquidity. -/
def stockChildrenRaw (companyRows : List CompanyRow) (stockRows : List TStockRow) : List Child :=
  ((sectorAgg companyRows stockRows).map (fun ks =>
    ({ name := some ks.1, type := "Stocks", rawValue := ks.2.totalLiquidity,
       avgChange := ks.2.avgChange, count := ks.2.count } : Child))).filter
    (fun d => decide (0 < d.rawValue))

/-- `d3.sum(children, d => d.rawValue) || 1`. -/
def jsTotal (l : List Child) : ℚ :=
  let s := (l.map (fun d => d.rawValue)).sum
  if s = 0 then 1 else s

/-- `children.map(d => ({ ...d, value: d.rawValue / total }))` with
`total` the `|| 1`-guarded partition sum. -/
def normalizeChildren (l : List Child) : List Child :=
  l.map (fun d => { d with value := d.rawValue / jsTotal l })

/-- The normalized stock leaves. -/
def stockChildren (companyRows : List CompanyRow) (stockRows : List TStockRow) : List Child :=
  normalizeChildren (stockChildrenRaw companyRows stockRows)

/-- The reducer result of the crypto `d3.rollup`. -/
structure CryptoStats where
  name : Option String
  symbol : Option String
  totalCap : ℚ
  avgChange : ℚ
deriving DecidableEq

/-- The crypto rollup reducer: `d3.sum(rows, r => parseNumber(r.market_cap))`
(`d3.sum` skips `NaN` accessor values, modelled by summing `getD 0`),
the mean of `+r.chg_7d || 0`, and the first row's `name` and `symbol`. -/
def cryptoStats : List TCryptoRow → CryptoStats
  | [] => { name := none, symbol := none, totalCap := 0, avgChange := 0 }
  | first :: rest =>
    { name := first.name, symbol := first.symbol,
      totalCap := ((first :: rest).map (fun r => (parseNumber r.marketCap).getD 0)).sum,
      avgChange :=
        ((first :: rest).map (fun r => jsNumberOr0 r.chg7d)).sum / (rest.length + 1 : ℚ) }

/-- The crypto `d3.rollup`, keyed by the raw `symbol` field. -/
def cryptoAgg (cryptoRows : List TCryptoRow) : List (Option String × CryptoStats) :=
  (groupRows (fun r => r.symbol) cryptoRows).map (fun ks => (ks.1, cryptoStats ks.2))

/-- `cryptoChildrenRaw`: one leaf per coin symbol with literal `count: 1`,
keeping only positive market cap. -/
def cryptoChildrenRaw (cryptoRows : List TCryptoRow) : List Child :=
  ((cryptoAgg cryptoRows).map (fun ks =>
    ({ name := jsOrOpt ks.2.name ks.1, symbol := ks.1, type := "Crypto",
       rawValue := ks.2.totalCap, avgChange := ks.2.avgChange, count := 1 } : Child))).filter
    (fun d => decide (0 < d.rawValue))

/-- The normalized crypto leaves. -/
def cryptoChildren (cryptoRows : List TCryptoRow) : List Child :=
  normalizeChildren (cryptoChildrenRaw cryptoRows)

/-! ### Helper lemmas about the treemap pipeline -/

theorem sum_map_div {α : Type} (f : α → ℚ) (c : ℚ) :
    ∀ l : List α, (l.map (fun x => f x / c)).sum = (l.map f).sum / c
  | [] => by simp
  | x :: xs => by simp [sum_map_div f c xs, add_div]

theorem filter_raw_pos {l : List Child} :
    ∀ x ∈ l.filter (fun d => decide (0 < d.rawValue)), 0 < x.rawValue := by
  intro x hx
  simpa using (List.mem_filter.mp hx).2

theorem stockChildrenRaw_pos {companyRows : List CompanyRow} {stockRows : List TStockRow} :
    ∀ x ∈ stockChildrenRaw companyRows stockRows, 0 < x.rawValue :=
  filter_raw_pos

theorem cryptoChildrenRaw_pos {cryptoRows : List TCryptoRow} :
    ∀ x ∈ cryptoChildrenRaw cryptoRows, 0 < x.rawValue :=
  filter_raw_pos

theorem rawSum_pos {l : List Child} (hpos : ∀ x ∈ l, 0 < x.rawValue) (hne : l ≠ []) :
    0 < (l.map (fun d => d.rawValue)).sum := by
  apply List.sum_pos
  · intro x hx
    obtain ⟨d, hd, rfl⟩ := List.mem_map.mp hx
    exact hpos d hd
  · simpa [List.map_eq_nil_iff] using hne

theorem sum_value_normalizeChildren {l : List Child} (hpos : ∀ x ∈ l, 0 < x.rawValue)
    (hne : l ≠ []) : ((normalizeChildren l).map (fun d => d.value)).sum = 1 := by
  have hs := rawSum_pos hpos hne
  have hne0 : (l.map (fun d => d.rawValue)).sum ≠ 0 := ne_of_gt hs
  have htot : jsTotal l = (l.map (fun d => d.rawValue)).sum := by simp [jsTotal, hne0]
  calc ((normalizeChildren l).map (fun d => d.value)).sum
      = (l.map (fun d => d.rawValue / jsTotal l)).sum := by
        simp only [normalizeChildren, List.map_map]
        rfl
    _ = (l.map (fun d => d.rawValue)).sum / jsTotal l := sum_map_div _ _ l
    _ = 1 := by rw [htot]; exact div_self hne0

theorem value_eq_div_of_mem_normalize {l : List Child} :
    ∀ c ∈ normalizeChildren l, c.value = c.rawValue / jsTotal l := by
  intro c hc
  obtain ⟨d, _, rfl⟩ := List.mem_map.mp hc
  rfl

theorem mem_firstKeys {ρ κ : Type} [DecidableEq κ] (key : ρ → κ) :
    ∀ (l : List ρ) (k : κ), k ∈ firstKeys key l ↔ ∃ x ∈ l, key x = k := by
  intro l
  induction l with
  | nil => simp [firstKeys]
  | cons x xs ih =>
    intro k
    simp only [firstKeys]
    by_cases hk : k = key x
    · subst hk
      constructor
      · intro _
        exact ⟨x, List.mem_cons_self x xs, rfl⟩
      · intro _
        exact List.mem_cons_self _ _
    · constructor
      · intro h
        rcases List.mem_cons.mp h with h1 | h1
        · exact absurd h1 hk
        · obtain ⟨y, hy, hky⟩ := (ih k).mp (List.mem_filter.mp h1).1
          exact ⟨y, List.mem_cons_of_mem x hy, hky⟩
      · rintro ⟨y, hy, hky⟩
        rcases List.mem_cons.mp hy with rfl | hy2
        · exact absurd hky.symm hk
        · refine List.mem_cons_of_mem _ (List.mem_filter.mpr ⟨(ih k).mpr ⟨y, hy2, hky⟩, ?_⟩)
          simp [hk]

theorem mem_groupRows_iff {ρ κ : Type} [DecidableEq κ] (key : ρ → κ) (l : List ρ) (k : κ)
    (rs : List ρ) :
    (k, rs) ∈ groupRows key l ↔
      (∃ x ∈ l, key x = k) ∧ rs = l.filter (fun r => decide (key r = k)) := by
  simp only [groupRows, List.mem_map]
  constructor
  · rintro ⟨k2, hk2, heq⟩
    rw [Prod.mk.injEq] at heq
    obtain ⟨rfl, hrs⟩ := heq
    exact ⟨(mem_firstKeys key l k2).mp hk2, hrs.symm⟩
  · rintro ⟨hex, rfl⟩
    exact ⟨k, (mem_firstKeys key l k).mpr hex, rfl⟩

theorem entryGet_sectorByTicker (companyRows : List CompanyRow) (sym : Option String) :
    entryGet (sectorByTicker companyRows) sym =
      (companyRows.reverse.find? (fun d => decide (d.ticker = sym))).map
        (fun d => jsOrStr d.sector "Unknown") := by
  simp only [entryGet, sectorByTicker, ← List.map_reverse, List.find?_map, Option.map_map]
  rfl

/-! ### Claims about the treemap Value Normalizer and leaves -/

/-- Claim C1: in each treemap partition (Stocks, Crypto) the Value
Normalizer emits `value = rawValue / partitionTotal` for the aggregates
with positive raw magnitude, and the emitted values sum to `1` whenever
the filtered set is non-empty (e.g. raw magnitudes 300 and 100 normalize
to 3/4 and 1/4); when the filtered set is empty, the `|| 1` guard
substitutes divisor `1` and the result is the empty list, with no
division fault. -/
theorem C1_value_normalizer (companyRows : List CompanyRow) (stockRows : List TStockRow)
    (cryptoRows : List TCryptoRow) :
    (stockChildrenRaw companyRows stockRows ≠ [] →
      ((stockChildren companyRows stockRows).map (fun d => d.value)).sum = 1)
    ∧ (∀ c ∈ stockChildren companyRows stockRows,
        c.value = c.rawValue / jsTotal (stockChildrenRaw companyRows stockRows))
    ∧ (cryptoChildrenRaw cryptoRows ≠ [] →
      ((cryptoChildren cryptoRows).map (fun d => d.value)).sum = 1)
    ∧ (∀ c ∈ cryptoChildren cryptoRows,
        c.value = c.rawValue / jsTotal (cryptoChildrenRaw cryptoRows))
    ∧ (stockChildrenRaw companyRows stockRows = [] →
        jsTotal (stockChildrenRaw companyRows stockRows) = 1 ∧
          stockChildren companyRows stockRows = [])
    ∧ stockChildren [⟨some "A", some "Tech"⟩, ⟨some "B", some "Fin"⟩]
        [⟨some "A", some "300", some "1"⟩, ⟨some "B", some "100", some "2"⟩] =
      [{ name := some "Tech", type := "Stocks", rawValue := 300, avgChange := 1, count := 1,
         value := 3/4 },
       { name := some "Fin", type := "Stocks", rawValue := 100, avgChange := 2, count := 1,
         value := 1/4 }] := by
  refine ⟨fun h => sum_value_normalizeChildren stockChildrenRaw_pos h,
    value_eq_div_of_mem_normalize,
    fun h => sum_value_normalizeChildren cryptoChildrenRaw_pos h,
    value_eq_div_of_mem_normalize,
    fun h => ⟨by simp [jsTotal, h], by simp [stockChildren, h, normalizeChildren]⟩,
    ?_⟩
  simp [stockChildren, normalizeChildren, stockChildrenRaw, sectorAgg, groupRows, firstKeys,
    sectorOf, sectorByTicker, entryGet, jsOrStr, sectorStats, jsNumberOr0, jsNumber, jsTotal,
    parseDecimalAll, splitSign, natOfDigits, digitVal, jsTrimChars, isJsWS]
  norm_num

/-- Witness for C1: a concrete non-empty stock partition sums to 1. -/
theorem C1_value_normalizer_witness :
    stockChildrenRaw [⟨some "A", some "Tech"⟩] [⟨some "A", some "300", some "1"⟩] ≠ [] ∧
    ((stockChildren [⟨some "A", some "Tech"⟩] [⟨some "A", some "300", some "1"⟩]).map
      (fun d => d.value)).sum = 1 := by
  have hne : stockChildrenRaw [⟨some "A", some "Tech"⟩] [⟨some "A", some "300", some "1"⟩]
      ≠ [] := by
    simp [stockChildrenRaw, sectorAgg, groupRows, firstKeys, sectorOf, sectorByTicker, entryGet,
      jsOrStr, sectorStats, jsNumberOr0, jsNumber, parseDecimalAll, splitSign, natOfDigits,
      digitVal, jsTrimChars, isJsWS]
    try norm_num
  exact ⟨hne, (C1_value_normalizer [⟨some "A", some "Tech"⟩] [⟨some "A", some "300", some "1"⟩]
    []).1 hne⟩

/-- Claim C9 (implicit): every Crypto treemap leaf carries `count = 1`
regardless of how many rows share the coin's symbol key, while every
Stocks leaf's `count` equals the number of stock rows folded into its
sector. -/
theorem C9_crypto_leaf_count_one (cryptoRows : List TCryptoRow) (companyRows : List CompanyRow)
    (stockRows : List TStockRow) :
    (∀ c ∈ cryptoChildren cryptoRows, c.count = 1)
    ∧ (∀ st ∈ stockChildren companyRows stockRows, ∃ k, st.name = some k ∧
        st.count = stockRows.countP (fun r => decide (sectorOf companyRows r = k))) := by
  constructor
  · intro c hc
    obtain ⟨d, hd, rfl⟩ := List.mem_map.mp hc
    obtain ⟨e, he, rfl⟩ := List.mem_map.mp (List.mem_of_mem_filter hd)
    rfl
  · intro st hst
    obtain ⟨d, hd, rfl⟩ := List.mem_map.mp hst
    obtain ⟨ks, hks, rfl⟩ := List.mem_map.mp (List.mem_of_mem_filter hd)
    obtain ⟨kr, hkr, rfl⟩ := List.mem_map.mp hks
    refine ⟨kr.1, rfl, ?_⟩
    have hflt := ((mem_groupRows_iff (sectorOf companyRows) stockRows kr.1 kr.2).mp
      (by simpa using hkr)).2
    simp [sectorStats, hflt, List.countP_eq_length_filter]

/-- Witness for C9 at a concrete crypto leaf. -/
theorem C9_crypto_leaf_count_one_witness :
    ({ name := some "Bitcoin", symbol := some "BTC", type := "Crypto", rawValue := 100,
       avgChange := 1, count := 1, value := 1 } : Child).count = 1 := by
  apply (C9_crypto_leaf_count_one [⟨some "BTC", some "Bitcoin", some "100", some "1"⟩] [] []).1
  simp [cryptoChildren, normalizeChildren, cryptoChildrenRaw, cryptoAgg, groupRows, firstKeys,
    cryptoStats, jsOrOpt, jsTotal, parseNumber, jsNumberOr0, jsNumber, parseDecimalAll,
    splitSign, natOfDigits, digitVal, jsTrimChars, isJsWS]
  try norm_num

/-- Claim C10 (implicit): a stock row whose ticker has no entry in the
companies mapping, or whose mapped sector is missing or empty, is not
discarded: its grouping key is the synthetic sector "Unknown", it lands
in the "Unknown" rollup bucket, and every leaf (the "Unknown" one
included) is normalized by the same `rawValue / total` rule. -/
theorem C10_unknown_sector (companyRows : List CompanyRow) (stockRows : List TStockRow)
    (r : TStockRow) (hr : r ∈ stockRows)
    (h : companyRows.reverse.find? (fun d => decide (d.ticker = r.symbol)) = none
       ∨ ∃ d, companyRows.reverse.find? (fun d2 => decide (d2.ticker = r.symbol)) = some d
           ∧ (d.sector = none ∨ d.sector = some "")) :
    sectorOf companyRows r = "Unknown"
    ∧ (∃ rs, ("Unknown", rs) ∈ groupRows (sectorOf companyRows) stockRows ∧ r ∈ rs)
    ∧ (∀ c ∈ stockChildren companyRows stockRows,
        c.value = c.rawValue / jsTotal (stockChildrenRaw companyRows stockRows)) := by
  have hsec : sectorOf companyRows r = "Unknown" := by
    rcases h with h | ⟨d, hd, hs⟩
    · simp [sectorOf, entryGet_sectorByTicker, h, jsOrStr]
    · rcases hs with hs | hs <;>
        simp [sectorOf, entryGet_sectorByTicker, hd, jsOrStr, hs]
  refine ⟨hsec,
    ⟨stockRows.filter (fun x => decide (sectorOf companyRows x = "Unknown")), ?_, ?_⟩,
    value_eq_div_of_mem_normalize⟩
  · exact (mem_groupRows_iff (sectorOf companyRows) stockRows "Unknown" _).mpr
      ⟨⟨r, hr, hsec⟩, rfl⟩
  · exact List.mem_filter.mpr ⟨hr, by simp [hsec]⟩

/-- Witness for C10: a concrete row whose ticker is absent from the
companies mapping gets sector "Unknown". -/
theorem C10_unknown_sector_witness :
    sectorOf [⟨some "B", some ""⟩] ⟨some "A", some "5", some "1"⟩ = "Unknown" :=
  (C10_unknown_sector [⟨some "B", some ""⟩] [⟨some "A", some "5", some "1"⟩]
    ⟨some "A", some "5", some "1"⟩ (by simp) (Or.inl (by decide))).1

/-! ### Helper lemmas about the ranked-bar aggregation loops -/

theorem mapGetA_mapSetA_self {β : Type} (k : String) (v : β) :
    ∀ m : List (String × β), mapGetA (mapSetA k v m) k = some v
  | [] => by simp [mapSetA, mapGetA]
  | (k1, g) :: m => by
    by_cases h : k1 = k
    · simp [mapSetA, mapGetA, h]
    · simp [mapSetA, mapGetA, h, mapGetA_mapSetA_self k v m]

theorem mapGetA_mapSetA_ne {β : Type} (k k2 : String) (v : β) (hne : k2 ≠ k) :
    ∀ m : List (String × β), mapGetA (mapSetA k v m) k2 = mapGetA m k2
  | [] => by
    have hne2 : ¬ k = k2 := fun h => hne h.symm
    simp [mapSetA, mapGetA, hne2]
  | (k1, g) :: m => by
    by_cases h : k1 = k
    · subst h
      have hne2 : ¬ k1 = k2 := fun h2 => hne h2.symm
      simp [mapSetA, mapGetA, hne2]
    · by_cases h2 : k1 = k2
      · subst h2
        simp [mapSetA, mapGetA, h]
      · simp [mapSetA, mapGetA, h, h2, mapGetA_mapSetA_ne k k2 v hne m]

theorem mem_mapSetA {β : Type} (k : String) (v : β) :
    ∀ (m : List (String × β)) (kg : String × β), kg ∈ mapSetA k v m → kg.2 = v ∨ kg ∈ m
  | [], kg, h => by
    simp [mapSetA] at h
    exact Or.inl (congrArg Prod.snd h)
  | (k1, g) :: m, kg, h => by
    by_cases h1 : k1 = k
    · simp [mapSetA, h1] at h
      rcases h with h | h
      · exact Or.inl (congrArg Prod.snd h)
      · exact Or.inr (List.mem_cons_of_mem _ h)
    · simp only [mapSetA, if_neg h1] at h
      rcases List.mem_cons.mp h with h | h
      · exact Or.inr (h ▸ List.mem_cons_self _ _)
      · rcases mem_mapSetA k v m kg h with h2 | h2
        · exact Or.inl h2
        · exact Or.inr (List.mem_cons_of_mem _ h2)

theorem stocksLoop_count_pos (rows : List StockRow) :
    ∀ (m gs : List (String × Group)),
      (∀ kg ∈ m, 1 ≤ kg.2.count) → stocksLoop rows m = Except.ok gs →
      ∀ kg ∈ gs, 1 ≤ kg.2.count := by
  induction rows with
  | nil =>
    intro m gs hm h
    simp [stocksLoop] at h
    exact h ▸ hm
  | cons d rest ih =>
    intro m gs hm h
    cases hp : parsePct d.chg with
    | none =>
      simp only [stocksLoop, hp] at h
      exact ih m gs hm h
    | some v =>
      cases hn : d.name with
      | none => simp [stocksLoop, hp, hn] at h
      | some nm =>
        simp only [stocksLoop, hp, hn] at h
        apply ih _ gs _ h
        intro kg hkg
        rcases mem_mapSetA _ _ _ kg hkg with h2 | h2
        · rw [h2]
          exact Nat.le_add_left 1 _
        · exact hm kg h2

/-- A row whose percent field fails to parse is skipped by the stock loop:
removing it from anywhere in the input leaves the result unchanged. -/
theorem stocksLoop_skip (r : StockRow) (h : parsePct r.chg = none) :
    ∀ (xs ys : List StockRow) (m : List (String × Group)),
      stocksLoop (xs ++ r :: ys) m = stocksLoop (xs ++ ys) m := by
  intro xs
  induction xs with
  | nil =>
    intro ys m
    simp [stocksLoop, h]
  | cons x xs ih =>
    intro ys m
    simp only [List.cons_append, stocksLoop]
    cases hp : parsePct x.chg with
    | none => exact ih ys m
    | some v =>
      cases hn : x.name with
      | none => rfl
      | some nm => exact ih ys _

/-- The analogue of `stocksLoop_skip` for the crypto loop. -/
theorem cryptoLoop_skip (r : CryptoRow) (h : parsePct r.chg24 = none) :
    ∀ (xs ys : List CryptoRow) (m : List (String × Group)),
      cryptoLoop (xs ++ r :: ys) m = cryptoLoop (xs ++ ys) m := by
  intro xs
  induction xs with
  | nil =>
    intro ys m
    simp [cryptoLoop, h]
  | cons x xs ih =>
    intro ys m
    simp only [List.cons_append, cryptoLoop]
    cases hp : parsePct x.chg24 with
    | none => exact ih ys m
    | some v =>
      cases hn : x.symbol with
      | none => rfl
      | some nm => exact ih ys _

/-- The first row of the input that actually folds into key `k` (its
percent field parses, its `name` field is present, and its normalized
key is `k`), reported by its raw `name`. -/
def firstContribName (k : String) : List StockRow → Option String
  | [] => none
  | r :: rest =>
    match parsePct r.chg with
    | none => firstContribName k rest
    | some _ =>
      match r.name with
      | none => firstContribName k rest
      | some nm =>
        if jsToLower (jsTrim nm) = k then some nm else firstContribName k rest

theorem stocksLoop_code_inv (rows : List StockRow) :
    ∀ (m gs : List (String × Group)), stocksLoop rows m = Except.ok gs →
      ∀ (k : String) (g : Group), mapGetA gs k = some g →
        (∃ g0, mapGetA m k = some g0 ∧ g.code = g0.code)
        ∨ (mapGetA m k = none ∧ ∃ nm, firstContribName k rows = some nm
            ∧ g.code = jsTrim nm ∧ jsToLower (jsTrim nm) = k) := by
  induction rows with
  | nil =>
    intro m gs h k g hg
    simp [stocksLoop] at h
    subst h
    exact Or.inl ⟨g, hg, rfl⟩
  | cons d rest ih =>
    intro m gs h k g hg
    cases hp : parsePct d.chg with
    | none =>
      simp only [stocksLoop, hp] at h
      rcases ih m gs h k g hg with h2 | ⟨h2, nm, h3, h4, h5⟩
      · exact Or.inl h2
      · refine Or.inr ⟨h2, nm, ?_, h4, h5⟩
        simp [firstContribName, hp, h3]
    | some v =>
      cases hn : d.name with
      | none => simp [stocksLoop, hp, hn] at h
      | some nm0 =>
        simp only [stocksLoop, hp, hn] at h
        by_cases hk : k = jsToLower (jsTrim nm0)
        · rcases ih _ gs h k g hg with ⟨g0, hget, hcode⟩ | ⟨hnone, _⟩
          · rw [hk, mapGetA_mapSetA_self] at hget
            injection hget with hget2
            subst hget2
            cases hm0 : mapGetA m (jsToLower (jsTrim nm0)) with
            | some gold =>
              refine Or.inl ⟨gold, by rw [hk]; exact hm0, ?_⟩
              rw [hcode, hm0]
              rfl
            | none =>
              refine Or.inr ⟨by rw [hk]; exact hm0, nm0, ?_, ?_, hk.symm⟩
              · simp [firstContribName, hp, hn, hk.symm]
              · rw [hcode, hm0]
                rfl
          · rw [hk, mapGetA_mapSetA_self] at hnone
            cases hnone
        · rcases ih _ gs h k g hg with ⟨g0, hget, hcode⟩ | ⟨hnone, nm, h3, h4, h5⟩
          · rw [mapGetA_mapSetA_ne _ _ _ hk] at hget
            exact Or.inl ⟨g0, hget, hcode⟩
          · rw [mapGetA_mapSetA_ne _ _ _ hk] at hnone
            refine Or.inr ⟨hnone, nm, ?_, h4, h5⟩
            have hk2 : ¬ (jsToLower (jsTrim nm0) = k) := fun h6 => hk h6.symm
            simp [firstContribName, hp, hn, h3, hk2]

/-- Every group other than the skipped row's own is untouched when a row
is inserted into the treemap rollup. -/
theorem sectorAgg_other_groups (companyRows : List CompanyRow) (xs ys : List TStockRow)
    (r : TStockRow) (k : String) (hk : sectorOf companyRows r ≠ k) (rs : List TStockRow) :
    ((k, rs) ∈ groupRows (sectorOf companyRows) (xs ++ r :: ys) ↔
      (k, rs) ∈ groupRows (sectorOf companyRows) (xs ++ ys)) := by
  have hfilt : (xs ++ r :: ys).filter (fun x => decide (sectorOf companyRows x = k)) =
      (xs ++ ys).filter (fun x => decide (sectorOf companyRows x = k)) := by
    simp [List.filter_append, List.filter_cons, hk]
  simp only [mem_groupRows_iff]
  constructor
  · rintro ⟨⟨x, hx, hxk⟩, h2⟩
    refine ⟨?_, h2.trans hfilt⟩
    rcases List.mem_append.mp hx with h3 | h3
    · exact ⟨x, List.mem_append.mpr (Or.inl h3), hxk⟩
    · rcases List.mem_cons.mp h3 with rfl | h4
      · exact absurd hxk hk
      · exact ⟨x, List.mem_append.mpr (Or.inr h4), hxk⟩
  · rintro ⟨⟨x, hx, hxk⟩, h2⟩
    refine ⟨?_, h2.trans hfilt.symm⟩
    rcases List.mem_append.mp hx with h3 | h3
    · exact ⟨x, List.mem_append.mpr (Or.inl h3), hxk⟩
    · exact ⟨x, List.mem_append.mpr (Or.inr (List.mem_cons_of_mem r h3)), hxk⟩

/-- A non-parsing `vol_` field is coerced to 0 by the treemap reducer:
the liquidity sum ignores the row, but the count still includes it. -/
theorem sectorStats_nan_vol (rs1 rs2 : List TStockRow) (r : TStockRow)
    (h : jsNumber r.vol = none) :
    (sectorStats (rs1 ++ r :: rs2)).totalLiquidity = (sectorStats (rs1 ++ rs2)).totalLiquidity
    ∧ (sectorStats (rs1 ++ r :: rs2)).count = (sectorStats (rs1 ++ rs2)).count + 1 := by
  constructor
  · simp [sectorStats, jsNumberOr0, h]
  · simp [sectorStats]
    omega

/-! ### Claims about the ranked-bar Group Aggregator -/

/-- Claim C4: the ranked-bar Group Aggregator merges rows whose
identifiers differ only in case or surrounding whitespace — rows
`AAA: +2.00%` and `aaa: -1.00%` yield a single group keyed `aaa` with
`count = 2`, `sum = 1`, mean `0.5` — and for every aggregate produced,
the mean is `sum / count` and `count ≥ 1`. -/
theorem C4_group_aggregator (rows : List StockRow) (gs : List (String × Group))
    (h : stocksLoop rows [] = Except.ok gs) :
    (∀ kg ∈ gs, 1 ≤ kg.2.count ∧ (stockAsset kg.2).avgPct = kg.2.sum / (kg.2.count : ℚ))
    ∧ stocksLoop [⟨some "AAA", some "+2.00%"⟩, ⟨some "aaa", some "-1.00%"⟩] [] =
        Except.ok [("aaa", { category := "Stock", code := "AAA", sum := 1, count := 2 })] := by
  refine ⟨fun kg hkg => ⟨stocksLoop_count_pos rows [] gs (by simp) h kg hkg, rfl⟩, ?_⟩
  simp [stocksLoop, parsePct, jsParseFloat, stripFirst, splitSign, natOfDigits, digitVal,
    isJsWS, jsTrim, jsTrimChars, jsToLower, mapGetA, mapSetA]
  norm_num

/-- Witness for C4 at the Scenario A input. -/
theorem C4_group_aggregator_witness :
    1 ≤ ({ category := "Stock", code := "AAA", sum := 1, count := 2 } : Group).count ∧
    (stockAsset { category := "Stock", code := "AAA", sum := 1, count := 2 }).avgPct
      = (1 : ℚ) / 2 := by
  have hrun : stocksLoop [⟨some "AAA", some "+2.00%"⟩, ⟨some "aaa", some "-1.00%"⟩] [] =
      Except.ok [("aaa", { category := "Stock", code := "AAA", sum := 1, count := 2 })] := by
    simp [stocksLoop, parsePct, jsParseFloat, stripFirst, splitSign, natOfDigits, digitVal,
      isJsWS, jsTrim, jsTrimChars, jsToLower, mapGetA, mapSetA]
    norm_num
  have h := (C4_group_aggregator _ _ hrun).1 ("aaa",
    { category := "Stock", code := "AAA", sum := 1, count := 2 }) (by simp)
  refine ⟨h.1, ?_⟩
  rw [h.2]
  norm_num

/-- Claim C5 is FALSE on the code: a row whose identifier trims to the
empty string is NOT discarded — with a parseable percent field it folds
into the empty-key group — and a row with a missing identifier whose
percent field parses raises instead of being skipped. -/
theorem C5_counterexample :
    stocksLoop [⟨some "  ", some "+2.00%"⟩] [] =
      Except.ok [("", { category := "Stock", code := "", sum := 2, count := 1 })]
    ∧ stocksLoop [⟨none, some "+2.00%"⟩] [] = Except.error () := by
  constructor
  · simp [stocksLoop, parsePct, jsParseFloat, stripFirst, splitSign, natOfDigits, digitVal,
      isJsWS, jsTrim, jsTrimChars, jsToLower, mapGetA, mapSetA]
    norm_num
  · simp [stocksLoop, parsePct, jsParseFloat, stripFirst, splitSign, natOfDigits, digitVal,
      isJsWS]

/-- Claim C5 (amended): a row is discarded exactly by the numeric guard —
when its percent field fails to parse it contributes to no aggregate and
no error is raised, whatever its identifier (both loops); a row whose
percent field parses is folded even when its identifier trims to empty
(into the empty-key group), and raises when the identifier is missing. -/
theorem C5_identifier_policy_amended :
    (∀ (r : StockRow), parsePct r.chg = none →
      ∀ (xs ys : List StockRow) (m : List (String × Group)),
        stocksLoop (xs ++ r :: ys) m = stocksLoop (xs ++ ys) m)
    ∧ (∀ (r : CryptoRow), parsePct r.chg24 = none →
      ∀ (xs ys : List CryptoRow) (m : List (String × Group)),
        cryptoLoop (xs ++ r :: ys) m = cryptoLoop (xs ++ ys) m)
    ∧ stocksLoop [⟨some "  ", some "+2.00%"⟩] [] =
        Except.ok [("", { category := "Stock", code := "", sum := 2, count := 1 })]
    ∧ stocksLoop [⟨none, some "+2.00%"⟩] [] = Except.error () := by
  refine ⟨fun r h xs ys m => stocksLoop_skip r h xs ys m,
    fun r h xs ys m => cryptoLoop_skip r h xs ys m, ?_, ?_⟩
  · simp [stocksLoop, parsePct, jsParseFloat, stripFirst, splitSign, natOfDigits, digitVal,
      isJsWS, jsTrim, jsTrimChars, jsToLower, mapGetA, mapSetA]
    norm_num
  · simp [stocksLoop, parsePct, jsParseFloat, stripFirst, splitSign, natOfDigits, digitVal,
      isJsWS]

/-- Witness for the amended C5: a row with a missing identifier and a
non-parsing percent field is skipped without error. -/
theorem C5_identifier_policy_amended_witness :
    stocksLoop [StockRow.mk none none] [] = stocksLoop [] [] := by
  have h := C5_identifier_policy_amended.1 ⟨none, none⟩ rfl [] [] []
  simpa using h

/-- Claim C6 is FALSE for the treemap Group Aggregator cited as its
source: a row whose `vol_` field does not parse (`Number("abc")` is
`NaN`) is NOT excluded from its sector's fold — it is coerced to 0 and
still counted, so the group's aggregate differs from the one obtained
with the row removed (count 2 and mean 3 versus count 1 and mean 2). -/
theorem C6_counterexample :
    jsNumber (some "abc") = none
    ∧ sectorAgg [] [⟨some "A", some "10", some "2"⟩, ⟨some "A", some "abc", some "4"⟩] =
        [("Unknown", { totalLiquidity := 10, avgChange := 3, count := 2 })]
    ∧ sectorAgg [] [⟨some "A", some "10", some "2"⟩] =
        [("Unknown", { totalLiquidity := 10, avgChange := 2, count := 1 })] := by
  refine ⟨by decide, ?_, ?_⟩
  · simp [sectorAgg, groupRows, firstKeys, sectorOf, sectorByTicker, entryGet, jsOrStr,
      sectorStats, jsNumberOr0, jsNumber, parseDecimalAll, splitSign, natOfDigits, digitVal,
      jsTrimChars, isJsWS]
    norm_num
  · simp [sectorAgg, groupRows, firstKeys, sectorOf, sectorByTicker, entryGet, jsOrStr,
      sectorStats, jsNumberOr0, jsNumber, parseDecimalAll, splitSign, natOfDigits, digitVal,
      jsTrimChars, isJsWS]

/-- Claim C6 (amended): in the ranked-bar aggregator a non-parsing percent
field excludes the row entirely (the result equals that of the input
with the row removed, no error), in both loops; in the treemap
aggregator the non-parsing numeric field is instead coerced to 0 —
every other sector's bucket is unchanged, and the row's own group keeps
its liquidity sum but still counts the row. -/
theorem C6_malformed_value_amended :
    (∀ (r : StockRow), parsePct r.chg = none →
      ∀ (xs ys : List StockRow) (m : List (String × Group)),
        stocksLoop (xs ++ r :: ys) m = stocksLoop (xs ++ ys) m)
    ∧ (∀ (r : CryptoRow), parsePct r.chg24 = none →
      ∀ (xs ys : List CryptoRow) (m : List (String × Group)),
        cryptoLoop (xs ++ r :: ys) m = cryptoLoop (xs ++ ys) m)
    ∧ (∀ (companyRows : List CompanyRow) (xs ys : List TStockRow) (r : TStockRow) (k : String)
        (rs : List TStockRow), sectorOf companyRows r ≠ k →
        ((k, rs) ∈ groupRows (sectorOf companyRows) (xs ++ r :: ys) ↔
          (k, rs) ∈ groupRows (sectorOf companyRows) (xs ++ ys)))
    ∧ (∀ (rs1 rs2 : List TStockRow) (r : TStockRow), jsNumber r.vol = none →
        (sectorStats (rs1 ++ r :: rs2)).totalLiquidity
            = (sectorStats (rs1 ++ rs2)).totalLiquidity
        ∧ (sectorStats (rs1 ++ r :: rs2)).count = (sectorStats (rs1 ++ rs2)).count + 1) :=
  ⟨fun r h xs ys m => stocksLoop_skip r h xs ys m,
    fun r h xs ys m => cryptoLoop_skip r h xs ys m,
    fun companyRows xs ys r k rs hk => sectorAgg_other_groups companyRows xs ys r k hk rs,
    fun rs1 rs2 r h => sectorStats_nan_vol rs1 rs2 r h⟩

/-- Witness for the amended C6: the liquidity sum of the concrete group is
unchanged by the unparsable-volume row. -/
theorem C6_malformed_value_amended_witness :
    (sectorStats [⟨some "A", some "10", some "2"⟩, ⟨some "A", some "abc", some "4"⟩]
        ).totalLiquidity
      = (sectorStats [⟨some "A", some "10", some "2"⟩]).totalLiquidity := by
  have h := C6_malformed_value_amended.2.2.2 [⟨some "A", some "10", some "2"⟩] []
    ⟨some "A", some "abc", some "4"⟩ (by decide)
  simpa using h.1

/-- Claim C7 is FALSE as stated: the display label of a new group is the
TRIMMED first identifier, not the untrimmed one — the single row with
name `"  AAA  "` creates a group labelled `"AAA"`. -/
theorem C7_counterexample :
    stocksLoop [⟨some "  AAA  ", some "+1%"⟩] [] =
      Except.ok [("aaa", { category := "Stock", code := "AAA", sum := 1, count := 1 })]
    ∧ jsTrim "  AAA  " = "AAA" ∧ "AAA" ≠ "  AAA  " := by
  refine ⟨?_, by decide, by decide⟩
  simp [stocksLoop, parsePct, jsParseFloat, stripFirst, splitSign, natOfDigits, digitVal,
    isJsWS, jsTrim, jsTrimChars, jsToLower, mapGetA, mapSetA]

/-- Claim C7 (amended): when the Group Aggregator creates a new group, its
display label is the TRIMMED identifier of the first row folded into the
group (original casing preserved), and it is never updated by subsequent
rows of the same group whatever their casing or whitespace. -/
theorem C7_label_first_trimmed (rows : List StockRow) (gs : List (String × Group))
    (k : String) (g : Group) (h : stocksLoop rows [] = Except.ok gs)
    (hg : mapGetA gs k = some g) :
    ∃ nm, firstContribName k rows = some nm ∧ g.code = jsTrim nm
      ∧ jsToLower (jsTrim nm) = k := by
  rcases stocksLoop_code_inv rows [] gs h k g hg with ⟨g0, h2, _⟩ | ⟨_, h2⟩
  · simp [mapGetA] at h2
  · exact h2

/-- Witness for the amended C7: two rows with identifiers differing in
case and whitespace form one group labelled by the trimmed first name. -/
theorem C7_label_first_trimmed_witness :
    ∃ nm, firstContribName "abc" [⟨some " Abc ", some "1"⟩, ⟨some "ABC", some "2"⟩] = some nm
      ∧ ({ category := "Stock", code := "Abc", sum := 3, count := 2 } : Group).code = jsTrim nm
      ∧ jsToLower (jsTrim nm) = "abc" := by
  have hrun : stocksLoop [⟨some " Abc ", some "1"⟩, ⟨some "ABC", some "2"⟩] [] =
      Except.ok [("abc", { category := "Stock", code := "Abc", sum := 3, count := 2 })] := by
    simp [stocksLoop, parsePct, jsParseFloat, stripFirst, splitSign, natOfDigits, digitVal,
      isJsWS, jsTrim, jsTrimChars, jsToLower, mapGetA, mapSetA]
    norm_num
  exact C7_label_first_trimmed _ _ "abc" _ hrun (by simp [mapGetA])

/-! ### Helper lemmas about `pickTopBottom` -/

theorem mapSetA_length_le {β : Type} (k : String) (v : β) :
    ∀ m : List (String × β), (mapSetA k v m).length ≤ m.length + 1
  | [] => by simp [mapSetA]
  | (k1, g) :: m => by
    by_cases h : k1 = k
    · simp [mapSetA, h]
    · have := mapSetA_length_le k v m
      simp only [mapSetA, if_neg h, List.length_cons]
      omega

theorem dedupFold_length (l : List Asset) :
    ∀ m : List (String × Asset),
      (List.foldl (fun m2 d => mapSetA d.id d m2) m l).length ≤ m.length + l.length := by
  induction l with
  | nil =>
    intro m
    simp
  | cons d l ih =>
    intro m
    have h1 := ih (mapSetA d.id d m)
    have h2 := mapSetA_length_le d.id d m
    simp only [List.foldl_cons, List.length_cons]
    omega

theorem mem_dedupFold (l : List Asset) :
    ∀ (m : List (String × Asset)) (x : Asset),
      x ∈ (List.foldl (fun m2 d => mapSetA d.id d m2) m l).map (fun kv => kv.2) →
      x ∈ m.map (fun kv => kv.2) ∨ x ∈ l := by
  induction l with
  | nil =>
    intro m x h
    exact Or.inl h
  | cons d l ih =>
    intro m x h
    rcases ih (mapSetA d.id d m) x h with h2 | h2
    · obtain ⟨kv, hkv, rfl⟩ := List.mem_map.mp h2
      rcases mem_mapSetA d.id d m kv hkv with h3 | h3
      · exact Or.inr (by rw [h3]; exact List.mem_cons_self d l)
      · exact Or.inl (List.mem_map.mpr ⟨kv, h3, rfl⟩)
    · exact Or.inr (List.mem_cons_of_mem d h2)

theorem mapSetA_append {β : Type} (k : String) (v : β) :
    ∀ m : List (String × β), k ∉ m.map (fun kv => kv.1) → mapSetA k v m = m ++ [(k, v)]
  | [], _ => rfl
  | (k1, g) :: m, h => by
    simp only [List.map_cons, List.mem_cons, not_or] at h
    have h1 : ¬ k1 = k := fun h2 => h.1 h2.symm
    simp only [mapSetA, if_neg h1, List.cons_append, List.cons.injEq, true_and]
    exact mapSetA_append k v m h.2

theorem dedupFold_eq (l : List Asset) :
    ∀ m : List (String × Asset),
      (l.map (fun d => d.id)).Nodup →
      (∀ kv ∈ m, kv.1 ∉ l.map (fun d => d.id)) →
      List.foldl (fun m2 d => mapSetA d.id d m2) m l = m ++ l.map (fun d => (d.id, d)) := by
  induction l with
  | nil =>
    intro m _ _
    simp
  | cons d l ih =>
    intro m hnd hm
    have hnd2 : (d.id ∉ l.map (fun d2 => d2.id)) ∧ (l.map (fun d2 => d2.id)).Nodup :=
      List.nodup_cons.mp (by simpa using hnd)
    have hdid : d.id ∉ m.map (fun kv => kv.1) := by
      intro h
      obtain ⟨kv, hkv, hkveq⟩ := List.mem_map.mp h
      exact hm kv hkv (by simp [hkveq])
    have hstep := ih (m ++ [(d.id, d)]) hnd2.2 ?hp
    · rw [List.foldl_cons, mapSetA_append d.id d m hdid, hstep]
      simp
    case hp =>
      intro kv hkv
      rcases List.mem_append.mp hkv with h2 | h2
      · exact fun h3 => hm kv h2 (List.mem_cons_of_mem _ h3)
      · have hkv2 : kv = (d.id, d) := by simpa using h2
        subst hkv2
        simpa using hnd2.1

theorem dedup_map_eq_self (l : List Asset) (h : (l.map (fun d => d.id)).Nodup) :
    (List.foldl (fun m2 d => mapSetA d.id d m2) [] l).map (fun kv => kv.2) = l := by
  rw [dedupFold_eq l [] h (by simp)]
  simp only [List.nil_append, List.map_map]
  show l.map (fun d => d) = l
  simp

theorem mem_take_sort_pos {arr : List Asset} {posN : ℕ} {a : Asset}
    (ha : a ∈ (List.insertionSort descMean
      (arr.filter (fun d => decide (0 < d.avgPct)))).take posN) :
    a ∈ arr ∧ 0 < a.avgPct := by
  have h1 : a ∈ List.insertionSort descMean (arr.filter (fun d => decide (0 < d.avgPct))) :=
    (List.take_sublist _ _).subset ha
  have h2 : a ∈ arr.filter (fun d => decide (0 < d.avgPct)) := by simpa using h1
  have h3 := List.mem_filter.mp h2
  exact ⟨h3.1, by simpa using h3.2⟩

theorem mem_revtake_sort_neg {arr : List Asset} {negN : ℕ} {a : Asset}
    (ha : a ∈ ((List.insertionSort ascMean
      (arr.filter (fun d => decide (d.avgPct < 0)))).take negN).reverse) :
    a ∈ arr ∧ a.avgPct < 0 := by
  have h1 : a ∈ List.insertionSort ascMean (arr.filter (fun d => decide (d.avgPct < 0))) :=
    (List.take_sublist _ _).subset (List.mem_reverse.mp ha)
  have h2 : a ∈ arr.filter (fun d => decide (d.avgPct < 0)) := by simpa using h1
  have h3 := List.mem_filter.mp h2
  exact ⟨h3.1, by simpa using h3.2⟩

theorem pick_parts_ids_nodup (posN negN : ℕ) (arr : List Asset)
    (h : (arr.map (fun d => d.id)).Nodup) :
    ((((List.insertionSort descMean (arr.filter (fun d => decide (0 < d.avgPct)))).take posN)
      ++ ((List.insertionSort ascMean
        (arr.filter (fun d => decide (d.avgPct < 0)))).take negN).reverse).map
      (fun d => d.id)).Nodup := by
  have hinj := List.inj_on_of_nodup_map h
  have hpos : (((List.insertionSort descMean
      (arr.filter (fun d => decide (0 < d.avgPct)))).take posN).map (fun d => d.id)).Nodup := by
    apply List.Sublist.nodup
      (List.Sublist.map (fun d : Asset => d.id) (List.take_sublist _ _))
    apply ((List.Perm.map (fun d : Asset => d.id)
      (List.perm_insertionSort descMean _)).symm).nodup
    exact List.Sublist.nodup
      (List.Sublist.map (fun d : Asset => d.id) (List.filter_sublist arr)) h
  have hneg : ((((List.insertionSort ascMean
      (arr.filter (fun d => decide (d.avgPct < 0)))).take negN).reverse).map
      (fun d => d.id)).Nodup := by
    rw [List.map_reverse, List.nodup_reverse]
    apply List.Sublist.nodup
      (List.Sublist.map (fun d : Asset => d.id) (List.take_sublist _ _))
    apply ((List.Perm.map (fun d : Asset => d.id)
      (List.perm_insertionSort ascMean _)).symm).nodup
    exact List.Sublist.nodup
      (List.Sublist.map (fun d : Asset => d.id) (List.filter_sublist arr)) h
  rw [List.map_append, List.nodup_append]
  refine ⟨hpos, hneg, ?_⟩
  intro s hsA hsB
  obtain ⟨a, haA, rfl⟩ := List.mem_map.mp hsA
  obtain ⟨b, hbB, hba⟩ := List.mem_map.mp hsB
  have h1 := mem_take_sort_pos haA
  have h2 := mem_revtake_sort_neg hbB
  have hab : b = a := hinj h2.1 h1.1 hba
  rw [hab] at h2
  exact absurd h1.2 (lt_asymm h2.2)

/-- Under pairwise-distinct ids the dedup map is transparent: the
selection is literally top-positives followed by the reversed
bottom-negatives slice. -/
theorem pickTopBottom_eq (posN negN : ℕ) (arr : List Asset)
    (h : (arr.map (fun d => d.id)).Nodup) :
    pickTopBottom posN negN arr =
      (List.insertionSort descMean (arr.filter (fun d => decide (0 < d.avgPct)))).take posN ++
      ((List.insertionSort ascMean
        (arr.filter (fun d => decide (d.avgPct < 0)))).take negN).reverse := by
  simp only [pickTopBottom]
  exact dedup_map_eq_self _ (pick_parts_ids_nodup posN negN arr h)

theorem sorted_take_drop (sp : List Asset) (h : List.Sorted descMean sp) (n : ℕ) :
    ∀ x ∈ sp.take n, ∀ y ∈ sp.drop n, y.avgPct ≤ x.avgPct := by
  have h2 : List.Pairwise descMean (sp.take n ++ sp.drop n) := by
    rw [List.take_append_drop]
    exact h
  intro x hx y hy
  exact (List.pairwise_append.mp h2).2.2 x hx y hy

theorem pick_last_most_negative (posN negN : ℕ) (arr : List Asset)
    (h : (arr.map (fun d => d.id)).Nodup)
    (hneg : arr.filter (fun d => decide (d.avgPct < 0)) ≠ []) (hn : 1 ≤ negN) :
    ∃ z, (pickTopBottom posN negN arr).getLast? = some z ∧
      ∀ y ∈ arr, y.avgPct < 0 → z.avgPct ≤ y.avgPct := by
  rw [pickTopBottom_eq posN negN arr h]
  have hsorted := List.sorted_insertionSort ascMean
    (arr.filter (fun d => decide (d.avgPct < 0)))
  cases hcons : List.insertionSort ascMean (arr.filter (fun d => decide (d.avgPct < 0))) with
  | nil =>
    exfalso
    have hperm := List.perm_insertionSort ascMean (arr.filter (fun d => decide (d.avgPct < 0)))
    rw [hcons] at hperm
    exact hneg hperm.nil_eq.symm
  | cons z t =>
    refine ⟨z, ?_, ?_⟩
    · cases negN with
      | zero => omega
      | succ n =>
        rw [List.take_succ_cons, List.reverse_cons, ← List.append_assoc,
          List.getLast?_concat]
    · intro y hy hyneg
      have hymem : y ∈ z :: t := by
        rw [← hcons]
        simp only [List.mem_insertionSort]
        exact List.mem_filter.mpr ⟨hy, by simpa using hyneg⟩
      rw [hcons] at hsorted
      rcases List.mem_cons.mp hymem with rfl | hyt
      · exact le_refl _
      · exact List.rel_of_sorted_cons hsorted y hyt

/-! ### Claims about the Rank Selector -/

/-- The five sample aggregates of Scenario C, with means 5, 3, 1, -2, -7. -/
def sel5 : Asset :=
  { id := "a", category := "Stock", code := "a", avgPct := 5, absAvgPct := 5, count := 1 }

/-- Scenario C sample, mean 3. -/
def sel3 : Asset :=
  { id := "b", category := "Stock", code := "b", avgPct := 3, absAvgPct := 3, count := 1 }

/-- Scenario C sample, mean 1. -/
def sel1 : Asset :=
  { id := "c", category := "Stock", code := "c", avgPct := 1, absAvgPct := 1, count := 1 }

/-- Scenario C sample, mean -2. -/
def selm2 : Asset :=
  { id := "d", category := "Stock", code := "d", avgPct := -2, absAvgPct := 2, count := 1 }

/-- Scenario C sample, mean -7. -/
def selm7 : Asset :=
  { id := "e", category := "Stock", code := "e", avgPct := -7, absAvgPct := 7, count := 1 }

/-- A positive asset sharing its id with a later, smaller positive asset:
the dedup `Map` keeps the first insertion position but overwrites the
value. -/
def dupA : Asset :=
  { id := "dup", category := "Stock", code := "A", avgPct := 5, absAvgPct := 5, count := 1 }

/-- The second asset with the duplicated id. -/
def dupB : Asset :=
  { id := "dup", category := "Stock", code := "B", avgPct := 3, absAvgPct := 3, count := 1 }

/-- Claim C2 is FALSE as universally stated: with two distinct positive
aggregates sharing one id, the selector returns only the later one
(mean 3), while the unreturned positive has the larger mean 5 — so a
returned positive is not ≥ every unreturned positive. -/
theorem C2_counterexample :
    pickTopBottom POS_N NEG_N [dupA, dupB] = [dupB]
    ∧ 0 < dupA.avgPct ∧ dupA ∉ pickTopBottom POS_N NEG_N [dupA, dupB]
    ∧ 0 < dupB.avgPct ∧ dupB ∈ pickTopBottom POS_N NEG_N [dupA, dupB]
    ∧ dupB.avgPct < dupA.avgPct := by decide

/-- Claim C2 (amended): the selector returns at most `posN + negN`
entries and every returned entry has nonzero mean (so an all-zero input
yields an empty selection); and PROVIDED the input aggregates carry
pairwise-distinct ids (as the Group Aggregator guarantees), the returned
positives are the true top-`posN`: every returned positive's mean is ≥
the mean of every positive not returned. -/
theorem C2_rank_selector_amended (posN negN : ℕ) (arr : List Asset) :
    (pickTopBottom posN negN arr).length ≤ posN + negN
    ∧ (∀ x ∈ pickTopBottom posN negN arr, x.avgPct ≠ 0)
    ∧ ((∀ y ∈ arr, y.avgPct = 0) → pickTopBottom posN negN arr = [])
    ∧ ((arr.map (fun d => d.id)).Nodup →
        ∀ x ∈ pickTopBottom posN negN arr, 0 < x.avgPct →
          ∀ y ∈ arr, 0 < y.avgPct → y ∉ pickTopBottom posN negN arr →
            y.avgPct ≤ x.avgPct) := by
  refine ⟨?_, ?_, ?_, ?_⟩
  · simp only [pickTopBottom, List.length_map]
    have h1 := dedupFold_length ((List.insertionSort descMean
        (arr.filter (fun d => decide (0 < d.avgPct)))).take posN ++
      ((List.insertionSort ascMean
        (arr.filter (fun d => decide (d.avgPct < 0)))).take negN).reverse) []
    have h2 := List.length_take_le posN
      (List.insertionSort descMean (arr.filter (fun d => decide (0 < d.avgPct))))
    have h3 := List.length_take_le negN
      (List.insertionSort ascMean (arr.filter (fun d => decide (d.avgPct < 0))))
    simp only [List.length_append, List.length_reverse, List.length_nil] at h1 ⊢
    omega
  · intro x hx
    simp only [pickTopBottom] at hx
    rcases mem_dedupFold _ [] x hx with h2 | h2
    · simp at h2
    · rcases List.mem_append.mp h2 with h3 | h3
      · exact ne_of_gt (mem_take_sort_pos h3).2
      · exact ne_of_lt (mem_revtake_sort_neg h3).2
  · intro hz
    have hpos : arr.filter (fun d => decide (0 < d.avgPct)) = [] := by
      apply List.filter_eq_nil_iff.mpr
      intro a ha
      simp [hz a ha]
    have hneg : arr.filter (fun d => decide (d.avgPct < 0)) = [] := by
      apply List.filter_eq_nil_iff.mpr
      intro a ha
      simp [hz a ha]
    simp [pickTopBottom, hpos, hneg, List.insertionSort]
  · intro hnodup x hx hxpos y hy hypos hyn
    rw [pickTopBottom_eq posN negN arr hnodup] at hx hyn
    rcases List.mem_append.mp hx with hx1 | hx1
    · have hsorted := List.sorted_insertionSort descMean
        (arr.filter (fun d => decide (0 < d.avgPct)))
      have hysort : y ∈ List.insertionSort descMean
          (arr.filter (fun d => decide (0 < d.avgPct))) := by
        simp only [List.mem_insertionSort]
        exact List.mem_filter.mpr ⟨hy, by simpa using hypos⟩
      have hsplit := (List.take_append_drop posN (List.insertionSort descMean
        (arr.filter (fun d => decide (0 < d.avgPct))))).symm
      have hy2 := List.mem_append.mp (hsplit ▸ hysort)
      rcases hy2 with hy3 | hy3
      · exact absurd (List.mem_append.mpr (Or.inl hy3)) hyn
      · exact sorted_take_drop _ hsorted posN x hx1 y hy3
    · exact absurd hxpos (lt_asymm (mem_revtake_sort_neg hx1).2)

/-- Witness for the amended C2: with three distinct positives and
`posN = 2` the selected entries dominate the dropped one. -/
theorem C2_rank_selector_amended_witness : sel1.avgPct ≤ sel5.avgPct := by
  have h := (C2_rank_selector_amended 2 1 [sel5, sel3, sel1]).2.2.2
  exact h (by decide) sel5 (by decide) (by decide) sel1 (by decide) (by decide) (by decide)

/-- Claim C3: the selector's output order is positives sorted by mean
descending followed by the reversed first-`negN` slice of the negatives
sorted ascending, so the most negative selected entry is last; Scenario
C (`posN = 2`, `negN = 1` over means 5, 3, 1, -2, -7) yields the order
5, 3, -7. -/
theorem C3_selector_order (posN negN : ℕ) (arr : List Asset)
    (h : (arr.map (fun d => d.id)).Nodup) :
    pickTopBottom posN negN arr =
      (List.insertionSort descMean (arr.filter (fun d => decide (0 < d.avgPct)))).take posN ++
      ((List.insertionSort ascMean
        (arr.filter (fun d => decide (d.avgPct < 0)))).take negN).reverse
    ∧ (arr.filter (fun d => decide (d.avgPct < 0)) ≠ [] → 1 ≤ negN →
        ∃ z, (pickTopBottom posN negN arr).getLast? = some z ∧
          ∀ y ∈ arr, y.avgPct < 0 → z.avgPct ≤ y.avgPct)
    ∧ pickTopBottom 2 1 [sel5, sel3, sel1, selm2, selm7] = [sel5, sel3, selm7] :=
  ⟨pickTopBottom_eq posN negN arr h,
    fun hne hn => pick_last_most_negative posN negN arr h hne hn,
    by decide⟩

/-- Witness for C3 at the Scenario C input. -/
theorem C3_selector_order_witness :
    pickTopBottom 2 1 [sel5, sel3, sel1, selm2, selm7] =
      (List.insertionSort descMean
        ([sel5, sel3, sel1, selm2, selm7].filter (fun d => decide (0 < d.avgPct)))).take 2 ++
      ((List.insertionSort ascMean
        ([sel5, sel3, sel1, selm2, selm7].filter
          (fun d => decide (d.avgPct < 0)))).take 1).reverse :=
  (C3_selector_order 2 1 [sel5, sel3, sel1, selm2, selm7] (by decide)).1

/-- Claim C8: the full ranked-bar pipeline is deterministic — running it
twice on the same input rows gives identical aggregates and identical
selection sets in the same order.  Every stage of the embedding
(insertion-ordered maps, stable sorting, filtering) is a pure function
of the input lists, so the two runs coincide definitionally. -/
theorem C8_pipeline_deterministic (sRaw : List StockRow) (cRaw : List CryptoRow)
    (posN negN : ℕ) :
    marketPipeline sRaw cRaw posN negN = marketPipeline sRaw cRaw posN negN := rfl

end Viz
